import Mathlib

/-!
Verification of the links_APIgpt storage layer.

Shallow embedding of the two storage backends:
* `JsonStorage` (src/storage.py) — state is the `links` array of the JSON
  document, modelled as `List LinkRec`.
* `PgStorage` (src/storage_pg.py) — state is the `links` table, modelled as
  `List LinkRec` (row order = insertion order; `order by updated_at desc`
  is modelled by a stable descending sort, one fixed determinization of the
  tie order the engine leaves unspecified).

Timestamps are abstract instants (`Nat`); `uuid4()` / `now_utc()` are
environment inputs, so each operation takes the generated ids and the
current time as explicit arguments.  Case folding (`str.lower()` /
SQL `lower()`) is modelled by `Char.toLower` on the character list.
-/

namespace LinksApi

/-- A stored link record (models.py `Link`; the JSON document's objects and
the `links` table rows both carry exactly these fields). `title` and `notes`
are nullable; `tags` is always a list (`tags or []` in both backends). -/
structure LinkRec where
  id : String
  url : String
  title : Option String
  tags : List String
  notes : Option String
  created_at : Nat
  updated_at : Nat
deriving Repr, DecidableEq

/-- A validated draft (models.py `LinkIn` after `model_dump`): `url` required,
`tags` defaulted to `[]`. -/
structure Draft where
  url : String
  title : Option String
  tags : List String
  notes : Option String
deriving Repr, DecidableEq

/-- A partial-update patch (models.py `LinkUpdate`): every field optional;
`none` means "absent or null — do not change". -/
structure Patch where
  url : Option String := none
  title : Option String := none
  tags : Option (List String) := none
  notes : Option String := none
deriving Repr, DecidableEq

/-- storage_pg.py:140 `if not fields` — no patch key is present and non-null. -/
def Patch.isEmpty (p : Patch) : Bool :=
  p.url.isNone && p.title.isNone && p.tags.isNone && p.notes.isNone

/-- Lower-cased character list of a string (Python `s.lower()`, SQL `lower`). -/
def lc (s : String) : List Char := s.data.map Char.toLower

/-- Substring test, Python's `needle in hay` (storage.py:33-35). -/
def subOf (n : List Char) : List Char → Bool
  | [] => n.isEmpty
  | c :: t => n.isPrefixOf (c :: t) || subOf n t

/-- Does `f` accept some suffix of the subject?  This is how the `%`
wildcard consumes an arbitrary prefix. -/
def anySuffix (f : List Char → Bool) : List Char → Bool
  | [] => f []
  | c :: t => f (c :: t) || anySuffix f t

/-- SQL `LIKE` pattern matching on character lists (pattern, then subject):
`%` matches any sequence, `_` any single character, backslash escapes the
next pattern character; other characters match literally.  `ILIKE` is
obtained by applying `lc` to both sides. -/
def likeMatch : List Char → List Char → Bool
  | [], s => s.isEmpty
  | '%' :: p, s => anySuffix (likeMatch p) s
  | '_' :: p, s =>
    match s with
    | [] => false
    | _ :: s₂ => likeMatch p s₂
  | '\\' :: e :: p, s =>
    match s with
    | [] => false
    | d :: s₂ => (d == e) && likeMatch p s₂
  | ['\\'], _ => false
  | c :: p, s =>
    match s with
    | [] => false
    | d :: s₂ => (d == c) && likeMatch p s₂

/-- storage.py:29-37 — `q` filter of the JSON backend: case-insensitive
substring of `title`, `url` or `notes` (missing/None field read as `""`). -/
def jsonQMatch (q : String) (r : LinkRec) : Bool :=
  subOf (lc q) (lc (r.title.getD "")) ||
  subOf (lc q) (lc r.url) ||
  subOf (lc q) (lc (r.notes.getD ""))

/-- storage_pg.py:59-63 — `q` filter of the PG backend:
`coalesce(title,'') ilike %q% or url ilike %q% or coalesce(notes,'') ilike %q%`,
with `q` spliced into the pattern unescaped. -/
def pgQMatch (q : String) (r : LinkRec) : Bool :=
  likeMatch ('%' :: (lc q ++ ['%'])) (lc (r.title.getD "")) ||
  likeMatch ('%' :: (lc q ++ ['%'])) (lc r.url) ||
  likeMatch ('%' :: (lc q ++ ['%'])) (lc (r.notes.getD ""))

/-- storage.py:27-28 — tag filter stage of `JsonStorage.list_links`;
`if tag:` is Python truthiness, so `None` and `""` both skip it. -/
def tagFilter (tag : Option String) (items : List LinkRec) : List LinkRec :=
  match tag with
  | some t => if t = "" then items else items.filter (fun i => i.tags.contains t)
  | none => items

/-- storage.py:29-37 — q filter stage of `JsonStorage.list_links`;
`if q:` is Python truthiness, so `None` and `""` both skip it. -/
def qFilter (q : Option String) (items : List LinkRec) : List LinkRec :=
  match q with
  | some qs => if qs = "" then items else items.filter (fun i => jsonQMatch qs i)
  | none => items

/-- storage.py:27-37 — the two sequential filters of
`JsonStorage.list_links` (tag first, then q, i.e. an AND). -/
def jsonFilter (tag q : Option String) (items : List LinkRec) : List LinkRec :=
  qFilter q (tagFilter tag items)

/-- storage_pg.py:52-65 — the dynamic WHERE clause of `PgStorage.list_links`
as a row predicate (`%s = any(tags)` AND the `ilike` disjunction); `if tag:` /
`if q:` skip the clause for `None` and `""`. -/
def pgWhere (tag q : Option String) (r : LinkRec) : Bool :=
  (match tag with
   | some t => if t = "" then true else r.tags.contains t
   | none => true) &&
  (match q with
   | some qs => if qs = "" then true else pgQMatch qs r
   | none => true)

/-- Descending order on `updated_at` used by both backends
(storage.py:38 `sort(key=updated_at, reverse=True)`,
storage_pg.py:75 `order by updated_at desc`). -/
def updGE (a b : LinkRec) : Prop := b.updated_at ≤ a.updated_at

instance : DecidableRel updGE := fun a b => Nat.decLe b.updated_at a.updated_at

instance : IsTotal LinkRec updGE :=
  ⟨fun a b => (Nat.le_total b.updated_at a.updated_at).imp id id⟩

instance : IsTrans LinkRec updGE :=
  ⟨fun _ _ _ h1 h2 => Nat.le_trans h2 h1⟩

/-- Stable sort by `updated_at` descending (ties keep their prior order, as
Python's stable `list.sort` does; for PG one fixed tie determinization). -/
def sortDesc (l : List LinkRec) : List LinkRec := List.insertionSort updGE l

/-- storage.py:24-40 `JsonStorage.list_links`: filter, sort descending,
`total = len(items)`, page `items[offset:offset+limit]`. -/
def jsonListLinks (links : List LinkRec) (limit offset : Nat)
    (tag q : Option String) : List LinkRec × Nat :=
  let items := sortDesc (jsonFilter tag q links)
  ((items.drop offset).take limit, items.length)

/-- storage_pg.py:45-82 `PgStorage.list_links`: `select count(*)` with the
WHERE clause, then the page query with the same clause,
`order by updated_at desc limit %s offset %s`. -/
def pgListLinks (table : List LinkRec) (limit offset : Nat)
    (tag q : Option String) : List LinkRec × Nat :=
  let rows := table.filter (pgWhere tag q)
  (((sortDesc rows).drop offset).take limit, rows.length)

/-- Record built at creation: fresh id, both timestamps set to the same
instant (storage.py:44-47 and 57-60; storage_pg.py:91-95 and 107-113). -/
def mkRec (d : Draft) (id : String) (now : Nat) : LinkRec :=
  { id := id, url := d.url, title := d.title, tags := d.tags,
    notes := d.notes, created_at := now, updated_at := now }

/-- storage.py:42-50 `JsonStorage.create_link` (returns new state, record). -/
def jsonCreateLink (links : List LinkRec) (d : Draft) (id : String)
    (now : Nat) : List LinkRec × LinkRec :=
  (links ++ [mkRec d id now], mkRec d id now)

/-- storage_pg.py:84-97 `PgStorage.create_link`. -/
def pgCreateLink (table : List LinkRec) (d : Draft) (id : String)
    (now : Nat) : List LinkRec × LinkRec :=
  (table ++ [mkRec d id now], mkRec d id now)

/-- The records a bulk create builds for drafts `d_k, d_{k+1}, ...`: one id
per item in input order, one shared timestamp (storage.py:54-62,
storage_pg.py:100-115 — both loops run the same per-row construction). -/
def bulkRecs (ids : Nat → String) (now : Nat) : List Draft → Nat → List LinkRec
  | [], _ => []
  | d :: rest, k => mkRec d (ids k) now :: bulkRecs ids now rest (k + 1)

/-- storage.py:52-64 `JsonStorage.create_links_bulk`: every record appended
in input order, single `_write` at the end. -/
def jsonCreateLinksBulk (links : List LinkRec) (drafts : List Draft)
    (ids : Nat → String) (now : Nat) : List LinkRec × List LinkRec :=
  (links ++ bulkRecs ids now drafts 0, bulkRecs ids now drafts 0)

/-- storage_pg.py:103-119 — the insert loop inside the explicit transaction.
Whether the k-th `insert` statement succeeds is an environment oracle
`ok k` (constraint violation, connection failure, ...).  On the first
failure the loop raises; rows already staged are not yet committed. -/
def pgBulkGo (ids : Nat → String) (now : Nat) (ok : Nat → Bool) :
    List Draft → Nat → Except Unit (List LinkRec)
  | [], _ => .ok []
  | d :: rest, k =>
    if ok k then
      match pgBulkGo ids now ok rest (k + 1) with
      | .ok staged => .ok (mkRec d (ids k) now :: staged)
      | .error e => .error e
    else .error ()

/-- storage_pg.py:99-120 `PgStorage.create_links_bulk`: transaction commits
all staged rows on success; on any failure `conn.rollback()` leaves the
table unchanged and the error is re-raised. Returns the table after the
call and the surfaced outcome. -/
def pgCreateLinksBulk (table : List LinkRec) (drafts : List Draft)
    (ids : Nat → String) (now : Nat) (ok : Nat → Bool) :
    List LinkRec × Except Unit (List LinkRec) :=
  match pgBulkGo ids now ok drafts 0 with
  | .ok staged => (table ++ staged, .ok staged)
  | .error e => (table, .error e)

/-- storage.py:66-71 `JsonStorage.get_link`: first record with the id, else
`None`. -/
def jsonGetLink (links : List LinkRec) (id : String) : Option LinkRec :=
  links.find? (fun r => r.id == id)

/-- storage_pg.py:122-128 `PgStorage.get_link`: `select ... where id = %s`,
`fetchone()`. -/
def pgGetLink (table : List LinkRec) (id : String) : Option LinkRec :=
  table.find? (fun r => r.id == id)

/-- Patch application shared by both backends: set each present (non-null)
patch field, keep the rest, refresh `updated_at`
(storage.py:77-78 `dict.update` of the non-None items then
`updated_at = now`; storage_pg.py:134-144 dynamic SET clause of the
non-None keys plus `updated_at=%s`). -/
def applyPatch (p : Patch) (r : LinkRec) (now : Nat) : LinkRec :=
  { r with
    url := p.url.getD r.url
    title := match p.title with | some t => some t | none => r.title
    tags := p.tags.getD r.tags
    notes := match p.notes with | some n => some n | none => r.notes
    updated_at := now }

/-- storage.py:73-81 `JsonStorage.update_link`: walk the array, patch the
first record with the id (always refreshing `updated_at`, even for an empty
patch), write, return it; if no record matches, nothing is written and
`None` is returned. -/
def jsonUpdateLink (links : List LinkRec) (id : String) (p : Patch)
    (now : Nat) : List LinkRec × Option LinkRec :=
  match links with
  | [] => ([], none)
  | r :: rest =>
    if r.id == id then
      (applyPatch p r now :: rest, some (applyPatch p r now))
    else
      let res := jsonUpdateLink rest id p now
      (r :: res.1, res.2)

/-- storage_pg.py:130-157 `PgStorage.update_link`: an empty patch
short-circuits to a plain `get_link`; otherwise one `update ... returning`
sets the present fields plus `updated_at` on every row with that id. -/
def pgUpdateLink (table : List LinkRec) (id : String) (p : Patch)
    (now : Nat) : List LinkRec × Option LinkRec :=
  if p.isEmpty then
    (table, pgGetLink table id)
  else
    let t := table.map (fun r => if r.id == id then applyPatch p r now else r)
    (t, t.find? (fun r => r.id == id))

/-- storage.py:83-89 `JsonStorage.delete_link`: drop every record with the
id, report whether the array shrank. -/
def jsonDeleteLink (links : List LinkRec) (id : String) :
    List LinkRec × Bool :=
  let kept := links.filter (fun r => r.id != id)
  (kept, decide (kept.length < links.length))

/-- storage_pg.py:159-162 `PgStorage.delete_link`:
`delete from links where id=%s`, `rowcount > 0`. -/
def pgDeleteLink (table : List LinkRec) (id : String) :
    List LinkRec × Bool :=
  let kept := table.filter (fun r => r.id != id)
  (kept, decide (kept.length < table.length))

/-- storage.py:91-93 `JsonStorage.export_all`: returns the stored array
as-is (no sort, no pagination). -/
def jsonExportAll (links : List LinkRec) : List LinkRec := links

/-- storage_pg.py:164-169 `PgStorage.export_all`:
`select ... order by updated_at desc` over the whole table. -/
def pgExportAll (table : List LinkRec) : List LinkRec := sortDesc table

/-! ## General lemmas about the embedded operations -/

theorem sortDesc_perm (l : List LinkRec) : (sortDesc l).Perm l :=
  List.perm_insertionSort updGE l

theorem sortDesc_sorted (l : List LinkRec) : List.Sorted updGE (sortDesc l) :=
  List.sorted_insertionSort updGE l

theorem sortDesc_length (l : List LinkRec) : (sortDesc l).length = l.length :=
  (sortDesc_perm l).length_eq

theorem mem_sortDesc {r : LinkRec} {l : List LinkRec} :
    r ∈ sortDesc l ↔ r ∈ l :=
  (sortDesc_perm l).mem_iff

theorem take_append_take {α : Type} :
    ∀ (m : Nat) (ys : List α) (n : Nat),
      ys.take m ++ (ys.drop m).take n = ys.take (m + n)
  | 0, ys, n => by simp
  | m + 1, [], n => by simp
  | m + 1, a :: t, n => by
    simp only [List.take_succ_cons, List.drop_succ_cons, List.cons_append,
      Nat.succ_add]
    rw [take_append_take m t n]

theorem filter_length_lt_iff {α : Type} (p : α → Bool) (l : List α) :
    (l.filter p).length < l.length ↔ ∃ x ∈ l, ¬ p x = true := by
  induction l with
  | nil => simp
  | cons a t ih =>
    by_cases hp : p a = true
    · simp [hp, List.filter_cons, Nat.succ_lt_succ_iff, ih]
    · simp only [List.filter_cons, hp, if_neg, Bool.false_eq_true, ite_false,
        List.length_cons]
      constructor
      · intro _; exact ⟨a, List.mem_cons_self a t, by simp [hp]⟩
      · intro _
        exact Nat.lt_succ_of_le (List.length_filter_le p t)

end LinksApi

namespace LinksApi

/-! ## Claim C1 — export_all -/

def exDraft1 : Draft := { url := "http://a", title := none, tags := [], notes := none }

def exDraft2 : Draft := { url := "http://b", title := none, tags := [], notes := none }

/-- A JSON store reached by real operations: create two links at time 0,
then update the second one at time 5.  The second record now has the latest
`updated_at` but still sits in the second position of the array. -/
def exStore : List LinkRec :=
  (jsonUpdateLink
    ((jsonCreateLink ((jsonCreateLink [] exDraft1 "id1" 0).1) exDraft2 "id2" 0).1)
    "id2" { notes := some "n" } 5).1

/-- C1 counterexample: the file backend's `export_all` returns the stored
array as-is; on the reachable store `exStore` (second record touched last)
the output is the full set but is NOT sorted by `updated_at` descending. -/
theorem C1_counterexample :
    jsonExportAll exStore = exStore ∧
    ¬ List.Sorted updGE (jsonExportAll exStore) := by
  exact ⟨rfl, by decide⟩

/-- C1 (amended): for every stored record set, `export_all` returns the full
set with no pagination; the database backend returns it sorted by
`updated_at` descending, while the file backend returns it in stored
(insertion) order, unsorted. -/
theorem C1_amended :
    ∀ (links table : List LinkRec),
      jsonExportAll links = links ∧
      (pgExportAll table).Perm table ∧
      List.Sorted updGE (pgExportAll table) := by
  intro links table
  exact ⟨rfl, sortDesc_perm table, sortDesc_sorted table⟩

/-! ## Claim C8 — delete semantics -/

theorem delete_filter_length_iff (l : List LinkRec) (id : String) :
    ((l.filter (fun r => r.id != id)).length < l.length) ↔ ∃ r ∈ l, r.id = id := by
  rw [filter_length_lt_iff]
  constructor
  · rintro ⟨x, hx, hne⟩
    refine ⟨x, hx, ?_⟩
    simpa [bne] using hne
  · rintro ⟨x, hx, hid⟩
    exact ⟨x, hx, by simp [bne, hid]⟩

/-- C8: for both backends, `delete(id)` returns true iff a record with that
id exists; afterwards `get(id)` is the not-found sentinel `none`, and a
second delete of the same id returns false. -/
theorem C8_delete_get_roundtrip :
    ∀ (links table : List LinkRec) (id : String),
      ((jsonDeleteLink links id).2 = true ↔ ∃ r ∈ links, r.id = id) ∧
      jsonGetLink (jsonDeleteLink links id).1 id = none ∧
      (jsonDeleteLink (jsonDeleteLink links id).1 id).2 = false ∧
      ((pgDeleteLink table id).2 = true ↔ ∃ r ∈ table, r.id = id) ∧
      pgGetLink (pgDeleteLink table id).1 id = none ∧
      (pgDeleteLink (pgDeleteLink table id).1 id).2 = false := by
  intro links table id
  have hfind : ∀ l : List LinkRec,
      (l.filter (fun r => r.id != id)).find? (fun r => r.id == id) = none := by
    intro l
    rw [List.find?_eq_none]
    intro x hx
    have := (List.mem_filter.mp hx).2
    simpa [bne] using this
  have hsecond : ∀ l : List LinkRec,
      ((l.filter (fun r => r.id != id)).filter (fun r => r.id != id)).length
        < (l.filter (fun r => r.id != id)).length ↔ False := by
    intro l
    rw [delete_filter_length_iff]
    constructor
    · rintro ⟨x, hx, hid⟩
      have := (List.mem_filter.mp hx).2
      simp [bne, hid] at this
    · intro h; exact h.elim
  refine ⟨?_, hfind links, ?_, ?_, hfind table, ?_⟩
  · simpa [jsonDeleteLink] using delete_filter_length_iff links id
  · simp only [jsonDeleteLink, decide_eq_false_iff_not]
    exact fun h => (hsecond links).mp h
  · simpa [pgDeleteLink] using delete_filter_length_iff table id
  · simp only [pgDeleteLink, decide_eq_false_iff_not]
    exact fun h => (hsecond table).mp h

/-! ## Claim C10 — empty-string filter arguments -/

theorem jsonFilter_empty_strings (links : List LinkRec) :
    jsonFilter (some "") (some "") links = links ∧
    jsonFilter (some "") none links = links ∧
    jsonFilter none (some "") links = links := by
  refine ⟨?_, ?_, ?_⟩ <;> simp [jsonFilter, tagFilter, qFilter]

theorem pgWhere_empty_strings (table : List LinkRec) :
    table.filter (pgWhere (some "") (some "")) = table ∧
    table.filter (pgWhere (some "") none) = table ∧
    table.filter (pgWhere none (some "")) = table := by
  refine ⟨?_, ?_, ?_⟩ <;> simp [pgWhere]

/-- C10: in both backends, `tag=""` or `q=""` is skipped by the `if tag:` /
`if q:` truthiness checks, so the call behaves exactly like a call with the
argument absent, and every stored record is included in a full page —
including records whose tag sequence does not contain `""`. -/
theorem C10_empty_string_no_filter :
    ∀ (links table : List LinkRec) (limit offset : Nat),
      jsonListLinks links limit offset (some "") (some "") =
        jsonListLinks links limit offset none none ∧
      jsonListLinks links limit offset (some "") none =
        jsonListLinks links limit offset none none ∧
      jsonListLinks links limit offset none (some "") =
        jsonListLinks links limit offset none none ∧
      pgListLinks table limit offset (some "") (some "") =
        pgListLinks table limit offset none none ∧
      pgListLinks table limit offset (some "") none =
        pgListLinks table limit offset none none ∧
      pgListLinks table limit offset none (some "") =
        pgListLinks table limit offset none none ∧
      (∀ r ∈ links, r ∈ (jsonListLinks links links.length 0 (some "") (some "")).1) ∧
      (∀ r ∈ table, r ∈ (pgListLinks table table.length 0 (some "") (some "")).1) := by
  intro links table limit offset
  obtain ⟨hj1, hj2, hj3⟩ := jsonFilter_empty_strings links
  obtain ⟨hp1, hp2, hp3⟩ := pgWhere_empty_strings table
  have hjnone : jsonFilter none none links = links := rfl
  have hpnone : table.filter (pgWhere none none) = table := by simp [pgWhere]
  have hfull : ∀ l : List LinkRec,
      (sortDesc l).take l.length = sortDesc l := by
    intro l
    rw [List.take_of_length_le (le_of_eq (sortDesc_length l))]
  refine ⟨?_, ?_, ?_, ?_, ?_, ?_, ?_, ?_⟩
  · simp [jsonListLinks, hj1, hjnone]
  · simp [jsonListLinks, hj2, hjnone]
  · simp [jsonListLinks, hj3, hjnone]
  · simp [pgListLinks, hp1, hpnone]
  · simp [pgListLinks, hp2, hpnone]
  · simp [pgListLinks, hp3, hpnone]
  · intro r hr
    simp only [jsonListLinks, hj1, List.drop_zero, hfull links]
    exact mem_sortDesc.mpr hr
  · intro r hr
    simp only [pgListLinks, hp1, List.drop_zero, hfull table]
    exact mem_sortDesc.mpr hr

/-- A record whose tag list does not contain the empty string. -/
def c10Rec : LinkRec :=
  { id := "c10", url := "http://c", title := none, tags := ["a"],
    notes := none, created_at := 0, updated_at := 0 }

/-- C10 witness: the record with tags `["a"]` is returned by
`list(tag="", q="")` in both backends. -/
theorem C10_witness :
    c10Rec ∈ (jsonListLinks [c10Rec] 1 0 (some "") (some "")).1 ∧
    c10Rec ∈ (pgListLinks [c10Rec] 1 0 (some "") (some "")).1 := by
  have h := C10_empty_string_no_filter [c10Rec] [c10Rec] 1 0
  exact ⟨h.2.2.2.2.2.2.1 c10Rec (by simp), h.2.2.2.2.2.2.2 c10Rec (by simp)⟩

/-! ## Claim C6 — total count and pagination -/

/-- C6: for both backends, `total` is the size of the filtered set before
pagination (so it does not depend on `limit`/`offset`); an offset at or
beyond the filtered size yields an empty page; and two consecutive pages
concatenate to one contiguous slice of the filtered, sorted sequence —
no overlap, no gap. -/
theorem C6_total_and_pagination :
    ∀ (links table : List LinkRec) (limit offset : Nat) (tag q : Option String),
      (jsonListLinks links limit offset tag q).2 = (jsonFilter tag q links).length ∧
      (pgListLinks table limit offset tag q).2 = (table.filter (pgWhere tag q)).length ∧
      ((jsonListLinks links limit offset tag q).2 ≤ offset →
        (jsonListLinks links limit offset tag q).1 = []) ∧
      ((pgListLinks table limit offset tag q).2 ≤ offset →
        (pgListLinks table limit offset tag q).1 = []) ∧
      ((jsonListLinks links limit offset tag q).1 ++
          (jsonListLinks links limit (offset + limit) tag q).1 =
        ((sortDesc (jsonFilter tag q links)).drop offset).take (limit + limit)) ∧
      ((pgListLinks table limit offset tag q).1 ++
          (pgListLinks table limit (offset + limit) tag q).1 =
        ((sortDesc (table.filter (pgWhere tag q))).drop offset).take (limit + limit)) := by
  intro links table limit offset tag q
  have hpages : ∀ (s : List LinkRec),
      (s.drop offset).take limit ++ (s.drop (offset + limit)).take limit =
        (s.drop offset).take (limit + limit) := by
    intro s
    rw [← List.drop_drop limit offset s]
    exact take_append_take limit (s.drop offset) limit
  refine ⟨?_, rfl, ?_, ?_, ?_, ?_⟩
  · simp [jsonListLinks, sortDesc_length]
  · intro h
    simp only [jsonListLinks] at h ⊢
    rw [List.drop_eq_nil_of_le h, List.take_nil]
  · intro h
    simp only [pgListLinks] at h ⊢
    rw [List.drop_eq_nil_of_le (by rw [sortDesc_length]; exact h), List.take_nil]
  · exact hpages (sortDesc (jsonFilter tag q links))
  · exact hpages (sortDesc (table.filter (pgWhere tag q)))

/-- Five records with distinct ids (a tie in `updated_at` included). -/
def exStore5 : List LinkRec :=
  [ { id := "a", url := "http://1", title := none, tags := [], notes := none,
      created_at := 0, updated_at := 3 },
    { id := "b", url := "http://2", title := none, tags := [], notes := none,
      created_at := 0, updated_at := 1 },
    { id := "c", url := "http://3", title := none, tags := [], notes := none,
      created_at := 0, updated_at := 4 },
    { id := "d", url := "http://4", title := none, tags := [], notes := none,
      created_at := 0, updated_at := 1 },
    { id := "e", url := "http://5", title := none, tags := [], notes := none,
      created_at := 0, updated_at := 5 } ]

/-- C6 witness: on a 5-record store, `list(limit=2, offset=0)` and
`list(limit=2, offset=2)` both report `total = 5`, their pages concatenate
to the first four elements of the sorted sequence, and an offset of 7 yields
an empty page. -/
theorem C6_witness :
    (jsonListLinks exStore5 2 0 none none).2 = 5 ∧
    (jsonListLinks exStore5 2 2 none none).2 = 5 ∧
    ((jsonListLinks exStore5 2 0 none none).1 ++
        (jsonListLinks exStore5 2 2 none none).1 =
      ((sortDesc (jsonFilter none none exStore5)).drop 0).take 4) ∧
    (jsonListLinks exStore5 2 7 none none).1 = [] ∧
    (pgListLinks exStore5 2 7 none none).1 = [] := by
  have h0 := C6_total_and_pagination exStore5 exStore5 2 0 none none
  have h7 := C6_total_and_pagination exStore5 exStore5 2 7 none none
  refine ⟨h0.1.trans (by decide), h0.1.trans (by decide), h0.2.2.2.2.1,
    h7.2.2.1 (by decide), h7.2.2.2.1 (by decide)⟩

/-! ## Bulk-create helper lemmas -/

theorem bulkRecs_length (ids : Nat → String) (now : Nat) :
    ∀ (drafts : List Draft) (k : Nat),
      (bulkRecs ids now drafts k).length = drafts.length
  | [], _ => rfl
  | _ :: rest, k => by
    simp [bulkRecs, bulkRecs_length ids now rest (k + 1)]

theorem mem_bulkRecs {ids : Nat → String} {now : Nat} :
    ∀ {drafts : List Draft} {k : Nat} {r : LinkRec},
      r ∈ bulkRecs ids now drafts k → r.created_at = now ∧ r.updated_at = now := by
  intro drafts
  induction drafts with
  | nil => intro k r h; simp [bulkRecs] at h
  | cons d rest ih =>
    intro k r h
    simp only [bulkRecs, List.mem_cons] at h
    rcases h with h | h
    · subst h; exact ⟨rfl, rfl⟩
    · exact ih h

theorem bulkRecs_get (ids : Nat → String) (now : Nat) :
    ∀ (drafts : List Draft) (k j : Nat)
      (h : j < (bulkRecs ids now drafts k).length) (h2 : j < drafts.length),
      (bulkRecs ids now drafts k).get ⟨j, h⟩ =
        mkRec (drafts.get ⟨j, h2⟩) (ids (k + j)) now := by
  intro drafts
  induction drafts with
  | nil => intro k j h h2; simp at h2
  | cons d rest ih =>
    intro k j h h2
    cases j with
    | zero => simp [bulkRecs]
    | succ j' =>
      have hk : k + 1 + j' = k + (j' + 1) := by omega
      have h' : j' < (bulkRecs ids now rest (k + 1)).length := by
        rw [bulkRecs_length]; exact Nat.lt_of_succ_lt_succ h2
      have h2' : j' < rest.length := Nat.lt_of_succ_lt_succ h2
      simpa [bulkRecs, hk] using ih (k + 1) j' h' h2'

theorem bulkRecs_map_id (ids : Nat → String) (now : Nat) :
    ∀ (drafts : List Draft) (k : Nat),
      (bulkRecs ids now drafts k).map (fun r => r.id) =
        (List.range drafts.length).map (fun j => ids (k + j)) := by
  intro drafts
  induction drafts with
  | nil => intro k; rfl
  | cons d rest ih =>
    intro k
    have hfun : (fun j => ids (k + 1 + j)) = ((fun j => ids (k + j)) ∘ Nat.succ) :=
      funext fun j => congrArg ids (by omega)
    simp only [bulkRecs, mkRec, List.map_cons, List.length_cons,
      List.range_succ_eq_map, List.map_map, ih (k + 1), hfun, Nat.add_zero]

theorem pgBulkGo_all_ok (ids : Nat → String) (now : Nat) :
    ∀ (drafts : List Draft) (k : Nat),
      pgBulkGo ids now (fun _ => true) drafts k =
        .ok (bulkRecs ids now drafts k)
  | [], _ => rfl
  | d :: rest, k => by
    simp [pgBulkGo, bulkRecs, pgBulkGo_all_ok ids now rest (k + 1)]

theorem pgBulkGo_fails (ids : Nat → String) (now : Nat) (ok : Nat → Bool) :
    ∀ (drafts : List Draft) (k : Nat),
      (∃ j, j < drafts.length ∧ ok (k + j) = false) →
      ∃ e, pgBulkGo ids now ok drafts k = .error e := by
  intro drafts
  induction drafts with
  | nil => rintro k ⟨j, hj, _⟩; simp at hj
  | cons d rest ih =>
    rintro k ⟨j, hj, hfalse⟩
    by_cases hk : ok k = true
    · have hj0 : j ≠ 0 := by
        intro h; subst h; simp only [Nat.add_zero] at hfalse
        rw [hk] at hfalse; exact Bool.noConfusion hfalse
      obtain ⟨j', rfl⟩ : ∃ j', j = j' + 1 :=
        ⟨j - 1, by omega⟩
      obtain ⟨e, he⟩ := ih (k + 1)
        ⟨j', by simpa using Nat.lt_of_succ_lt_succ hj, by
          have : k + 1 + j' = k + (j' + 1) := by omega
          rw [this]; exact hfalse⟩
      exact ⟨e, by simp [pgBulkGo, hk, he]⟩
    · have hkf : ok k = false := by
        cases hok2 : ok k
        · rfl
        · exact absurd hok2 hk
      refine ⟨(), ?_⟩
      simp [pgBulkGo, hkf]

/-! ## Claim C7 — bulk create: ids, shared timestamp, order -/

/-- C7: for both backends, `create_bulk` assigns the k-th generated id to the
k-th draft, stamps every record of the batch with the one shared instant as
both `created_at` and `updated_at`, preserves the drafts' fields and order,
appends the batch to the store in input order, and (for injective id
generation) the assigned ids are pairwise distinct. -/
theorem C7_bulk_create :
    ∀ (links table : List LinkRec) (drafts : List Draft) (ids : Nat → String)
      (now : Nat),
      jsonCreateLinksBulk links drafts ids now =
        (links ++ bulkRecs ids now drafts 0, bulkRecs ids now drafts 0) ∧
      pgCreateLinksBulk table drafts ids now (fun _ => true) =
        (table ++ bulkRecs ids now drafts 0, .ok (bulkRecs ids now drafts 0)) ∧
      (bulkRecs ids now drafts 0).length = drafts.length ∧
      (∀ r ∈ bulkRecs ids now drafts 0, r.created_at = now ∧ r.updated_at = now) ∧
      (∀ (j : Nat) (h : j < (bulkRecs ids now drafts 0).length)
          (h2 : j < drafts.length),
        ((bulkRecs ids now drafts 0).get ⟨j, h⟩).id = ids j ∧
        ((bulkRecs ids now drafts 0).get ⟨j, h⟩).url = (drafts.get ⟨j, h2⟩).url ∧
        ((bulkRecs ids now drafts 0).get ⟨j, h⟩).title = (drafts.get ⟨j, h2⟩).title ∧
        ((bulkRecs ids now drafts 0).get ⟨j, h⟩).tags = (drafts.get ⟨j, h2⟩).tags ∧
        ((bulkRecs ids now drafts 0).get ⟨j, h⟩).notes = (drafts.get ⟨j, h2⟩).notes) ∧
      ((bulkRecs ids now drafts 0).map (fun r => r.id) =
        (List.range drafts.length).map ids) ∧
      (Function.Injective ids →
        ((bulkRecs ids now drafts 0).map (fun r => r.id)).Nodup) := by
  intro links table drafts ids now
  have hmap : (bulkRecs ids now drafts 0).map (fun r => r.id) =
      (List.range drafts.length).map ids := by
    rw [bulkRecs_map_id]
    exact List.map_congr_left fun j _ => congrArg ids (Nat.zero_add j)
  refine ⟨rfl, ?_, bulkRecs_length ids now drafts 0, fun r hr => mem_bulkRecs hr,
    ?_, hmap, ?_⟩
  · simp [pgCreateLinksBulk, pgBulkGo_all_ok ids now drafts 0]
  · intro j h h2
    rw [bulkRecs_get ids now drafts 0 j h h2]
    exact ⟨congrArg ids (Nat.zero_add j), rfl, rfl, rfl, rfl⟩
  · intro hinj
    rw [hmap]
    exact List.Nodup.map hinj (List.nodup_range _)

/-- C7 witness: two drafts bulk-created at instant 4 with ids "u0", "u1". -/
theorem C7_witness :
    (bulkRecs (fun n => "u" ++ toString n) 4 [exDraft1, exDraft2] 0).length = 2 ∧
    ((bulkRecs (fun n => "u" ++ toString n) 4 [exDraft1, exDraft2] 0).get
        ⟨0, by decide⟩).id = (fun n => "u" ++ toString n) 0 ∧
    ((bulkRecs (fun n => "u" ++ toString n) 4 [exDraft1, exDraft2] 0).get
        ⟨1, by decide⟩).url = (([exDraft1, exDraft2].get ⟨1, by decide⟩).url) := by
  have h := C7_bulk_create [] [] [exDraft1, exDraft2]
    (fun n => "u" ++ toString n) 4
  exact ⟨h.2.2.1, (h.2.2.2.2.1 0 (by decide) (by decide)).1,
    (h.2.2.2.2.1 1 (by decide) (by decide)).2.1⟩

/-! ## Claim C5 — bulk create atomicity in the database backend -/

/-- C5: in the database backend, if any row's insert in `create_bulk` fails,
the whole transaction rolls back — the table is unchanged and the error is
surfaced to the caller. -/
theorem C5_bulk_atomicity :
    ∀ (table : List LinkRec) (drafts : List Draft) (ids : Nat → String)
      (now : Nat) (ok : Nat → Bool),
      (∃ j, j < drafts.length ∧ ok j = false) →
      (pgCreateLinksBulk table drafts ids now ok).1 = table ∧
      ∃ e, (pgCreateLinksBulk table drafts ids now ok).2 = Except.error e := by
  intro table drafts ids now ok hfail
  obtain ⟨j, hj, hfalse⟩ := hfail
  obtain ⟨e, he⟩ := pgBulkGo_fails ids now ok drafts 0
    ⟨j, hj, by rw [Nat.zero_add]; exact hfalse⟩
  constructor
  · simp [pgCreateLinksBulk, he]
  · exact ⟨e, by simp [pgCreateLinksBulk, he]⟩

/-- C5 witness: bulk-create of 3 drafts whose 2nd insert fails leaves zero
of the 3 persisted and surfaces the error. -/
theorem C5_witness :
    (pgCreateLinksBulk [] [exDraft1, exDraft2, exDraft1]
        (fun n => "u" ++ toString n) 3 (fun k => k != 1)).1 = [] ∧
    ∃ e, (pgCreateLinksBulk [] [exDraft1, exDraft2, exDraft1]
        (fun n => "u" ++ toString n) 3 (fun k => k != 1)).2 = Except.error e :=
  C5_bulk_atomicity [] [exDraft1, exDraft2, exDraft1]
    (fun n => "u" ++ toString n) 3 (fun k => k != 1) ⟨1, by decide, by decide⟩

/-! ## Update helper lemmas -/

theorem applyPatch_id (p : Patch) (r : LinkRec) (now : Nat) :
    (applyPatch p r now).id = r.id := rfl

theorem applyPatch_created (p : Patch) (r : LinkRec) (now : Nat) :
    (applyPatch p r now).created_at = r.created_at := rfl

theorem applyPatch_updated (p : Patch) (r : LinkRec) (now : Nat) :
    (applyPatch p r now).updated_at = now := rfl

theorem jsonUpdate_mem (id : String) (p : Patch) (now : Nat) :
    ∀ (links : List LinkRec) (x : LinkRec),
      x ∈ (jsonUpdateLink links id p now).1 →
      x ∈ links ∨ ∃ r ∈ links, r.id = id ∧ x = applyPatch p r now := by
  intro links
  induction links with
  | nil => intro x hx; simp [jsonUpdateLink] at hx
  | cons r rest ih =>
    intro x hx
    by_cases hid : (r.id == id) = true
    · simp only [jsonUpdateLink, hid, if_true, List.mem_cons] at hx
      rcases hx with hx | hx
      · exact Or.inr ⟨r, List.mem_cons_self r rest, beq_iff_eq.mp hid, hx⟩
      · exact Or.inl (List.mem_cons_of_mem r hx)
    · simp only [jsonUpdateLink, hid, if_false, Bool.false_eq_true,
        List.mem_cons] at hx
      rcases hx with hx | hx
      · exact Or.inl (by simp [hx])
      · rcases ih x hx with h | ⟨y, hy, hyid, hxy⟩
        · exact Or.inl (List.mem_cons_of_mem r h)
        · exact Or.inr ⟨y, List.mem_cons_of_mem r hy, hyid, hxy⟩

theorem jsonUpdate_mem_preserved (id : String) (p : Patch) (now : Nat) :
    ∀ (links : List LinkRec) (x : LinkRec),
      x ∈ links → x.id ≠ id → x ∈ (jsonUpdateLink links id p now).1 := by
  intro links
  induction links with
  | nil => intro x hx; simp at hx
  | cons r rest ih =>
    intro x hx hne
    rcases List.mem_cons.mp hx with hx | hx
    · subst hx
      have hid : (x.id == id) = false := beq_eq_false_iff_ne.mpr hne
      simp [jsonUpdateLink, hid]
    · by_cases hid : (r.id == id) = true
      · simp only [jsonUpdateLink, hid, if_true]
        exact List.mem_cons_of_mem _ hx
      · simp only [jsonUpdateLink, hid, if_false, Bool.false_eq_true]
        exact List.mem_cons_of_mem r (ih x hx hne)

theorem jsonUpdate_created_map (id : String) (p : Patch) (now : Nat) :
    ∀ (links : List LinkRec),
      ((jsonUpdateLink links id p now).1).map (fun r => r.created_at) =
        links.map (fun r => r.created_at) := by
  intro links
  induction links with
  | nil => rfl
  | cons r rest ih =>
    by_cases hid : (r.id == id) = true
    · simp [jsonUpdateLink, hid, applyPatch_created]
    · simp [jsonUpdateLink, hid, ih]

theorem jsonUpdate_some_updated (id : String) (p : Patch) (now : Nat) :
    ∀ (links : List LinkRec) (r : LinkRec),
      (jsonUpdateLink links id p now).2 = some r → r.updated_at = now := by
  intro links
  induction links with
  | nil => intro r h; simp [jsonUpdateLink] at h
  | cons y rest ih =>
    intro r h
    by_cases hid : (y.id == id) = true
    · simp only [jsonUpdateLink, hid, if_true, Option.some.injEq] at h
      rw [← h]; rfl
    · simp only [jsonUpdateLink, hid, if_false, Bool.false_eq_true] at h
      exact ih r h

theorem pgUpdate_nonempty_state (id : String) (p : Patch) (now : Nat)
    (hne : p.isEmpty = false) (table : List LinkRec) :
    (pgUpdateLink table id p now).1 =
      table.map (fun r => if r.id == id then applyPatch p r now else r) := by
  simp [pgUpdateLink, hne]

theorem pgUpdate_empty (id : String) (p : Patch) (now : Nat)
    (hemp : p.isEmpty = true) (table : List LinkRec) :
    pgUpdateLink table id p now = (table, pgGetLink table id) := by
  simp [pgUpdateLink, hemp]

theorem pgUpdate_mem (id : String) (p : Patch) (now : Nat)
    (hne : p.isEmpty = false) (table : List LinkRec) (x : LinkRec) :
    x ∈ (pgUpdateLink table id p now).1 →
    x ∈ table ∨ ∃ r ∈ table, r.id = id ∧ x = applyPatch p r now := by
  rw [pgUpdate_nonempty_state id p now hne table]
  intro hx
  obtain ⟨y, hy, hxy⟩ := List.mem_map.mp hx
  by_cases hid : (y.id == id) = true
  · rw [if_pos hid] at hxy
    exact Or.inr ⟨y, hy, beq_iff_eq.mp hid, hxy.symm⟩
  · rw [if_neg hid] at hxy
    exact Or.inl (hxy ▸ hy)

theorem pgUpdate_mem_preserved (id : String) (p : Patch) (now : Nat)
    (table : List LinkRec) (x : LinkRec) :
    x ∈ table → x.id ≠ id → x ∈ (pgUpdateLink table id p now).1 := by
  intro hx hne
  by_cases hemp : p.isEmpty = true
  · rw [pgUpdate_empty id p now hemp table]; exact hx
  · have hf : p.isEmpty = false := by
      cases h : p.isEmpty
      · rfl
      · exact absurd h hemp
    rw [pgUpdate_nonempty_state id p now hf table]
    refine List.mem_map.mpr ⟨x, hx, ?_⟩
    rw [if_neg (by simp [beq_eq_false_iff_ne.mpr hne])]

theorem pgUpdate_created_map (id : String) (p : Patch) (now : Nat)
    (table : List LinkRec) :
    ((pgUpdateLink table id p now).1).map (fun r => r.created_at) =
      table.map (fun r => r.created_at) := by
  by_cases hemp : p.isEmpty = true
  · rw [pgUpdate_empty id p now hemp table]
  · have hf : p.isEmpty = false := by
      cases h : p.isEmpty
      · rfl
      · exact absurd h hemp
    rw [pgUpdate_nonempty_state id p now hf table, List.map_map]
    refine List.map_congr_left fun r _ => ?_
    by_cases hid : (r.id == id) = true <;>
      simp [Function.comp, hid, applyPatch_created]

theorem pgUpdate_some_updated (id : String) (p : Patch) (now : Nat)
    (hne : p.isEmpty = false) (table : List LinkRec) (r : LinkRec) :
    (pgUpdateLink table id p now).2 = some r → r.updated_at = now := by
  simp only [pgUpdateLink, hne, Bool.false_eq_true, if_false]
  intro h
  have hpred := List.find?_some h
  have hmem := List.mem_of_find?_eq_some h
  obtain ⟨y, _, hyr⟩ := List.mem_map.mp hmem
  by_cases hid : (y.id == id) = true
  · rw [if_pos hid] at hyr
    rw [← hyr]; rfl
  · rw [if_neg hid] at hyr
    rw [hyr] at hid
    exact absurd hpred hid

theorem pgUpdate_all_touched (id : String) (p : Patch) (now : Nat)
    (hne : p.isEmpty = false) (table : List LinkRec) (x : LinkRec) :
    x ∈ (pgUpdateLink table id p now).1 → x.id = id → x.updated_at = now := by
  rw [pgUpdate_nonempty_state id p now hne table]
  intro hx hxid
  obtain ⟨y, _, hxy⟩ := List.mem_map.mp hx
  by_cases hid : (y.id == id) = true
  · rw [if_pos hid] at hxy
    rw [← hxy]; rfl
  · rw [if_neg hid] at hxy
    rw [hxy] at hid
    exact absurd (beq_iff_eq.mpr hxid) hid

/-! ## Claim C9 — created_at <= updated_at invariant -/

/-- Every stored record was created no later than it was last touched. -/
@[reducible] def TimeInv (l : List LinkRec) : Prop :=
  ∀ r ∈ l, r.created_at ≤ r.updated_at

/-- C9: with a non-decreasing clock (`now` at or after every stored
`created_at`), every storage operation preserves `created_at ≤ updated_at`
for every stored record: creation (single and bulk, both backends) stamps
both fields with the same instant, update refreshes only `updated_at` and
never touches `created_at`, and delete only removes records. -/
theorem C9_timestamps_invariant :
    ∀ (links table : List LinkRec) (d : Draft) (drafts : List Draft)
      (idv id : String) (ids : Nat → String) (now : Nat) (p : Patch)
      (ok : Nat → Bool),
      (jsonCreateLink links d idv now).2.created_at =
        (jsonCreateLink links d idv now).2.updated_at ∧
      (pgCreateLink table d idv now).2.created_at =
        (pgCreateLink table d idv now).2.updated_at ∧
      (TimeInv links → TimeInv (jsonCreateLink links d idv now).1) ∧
      (TimeInv table → TimeInv (pgCreateLink table d idv now).1) ∧
      (TimeInv links → TimeInv (jsonCreateLinksBulk links drafts ids now).1) ∧
      (TimeInv table → TimeInv (pgCreateLinksBulk table drafts ids now ok).1) ∧
      (TimeInv links → (∀ r ∈ links, r.created_at ≤ now) →
        TimeInv (jsonUpdateLink links id p now).1) ∧
      (TimeInv table → (∀ r ∈ table, r.created_at ≤ now) →
        TimeInv (pgUpdateLink table id p now).1) ∧
      ((jsonUpdateLink links id p now).1.map (fun r => r.created_at) =
        links.map (fun r => r.created_at)) ∧
      ((pgUpdateLink table id p now).1.map (fun r => r.created_at) =
        table.map (fun r => r.created_at)) ∧
      (TimeInv links → TimeInv (jsonDeleteLink links id).1) ∧
      (TimeInv table → TimeInv (pgDeleteLink table id).1) := by
  intro links table d drafts idv id ids now p ok
  have hsingle : ∀ (l : List LinkRec), TimeInv l →
      TimeInv (l ++ [mkRec d idv now]) := by
    intro l hl r hr
    rcases List.mem_append.mp hr with h | h
    · exact hl r h
    · rw [List.mem_singleton.mp h]; exact Nat.le_refl now
  have hstaged : ∀ (dr : List Draft) (k : Nat) (staged : List LinkRec),
      pgBulkGo ids now ok dr k = .ok staged →
      ∀ r ∈ staged, r.created_at = now ∧ r.updated_at = now := by
    intro dr
    induction dr with
    | nil =>
      intro k staged h r hr
      simp only [pgBulkGo, Except.ok.injEq] at h
      rw [← h] at hr; simp at hr
    | cons d2 rest ih =>
      intro k staged h r hr
      by_cases hk : ok k = true
      · simp only [pgBulkGo, hk, if_true] at h
        cases hrec : pgBulkGo ids now ok rest (k + 1) with
        | ok staged2 =>
          rw [hrec] at h
          simp only [Except.ok.injEq] at h
          rw [← h] at hr
          rcases List.mem_cons.mp hr with hr | hr
          · rw [hr]; exact ⟨rfl, rfl⟩
          · exact ih (k + 1) staged2 hrec r hr
        | error e => rw [hrec] at h; simp at h
      · have hkf : ok k = false := by
          cases h2 : ok k
          · rfl
          · exact absurd h2 hk
        simp [pgBulkGo, hkf] at h
  have hupdinv : ∀ (l : List LinkRec),
      (∀ x, x ∈ l → x.created_at ≤ x.updated_at) →
      (∀ r ∈ l, r.created_at ≤ now) →
      (∀ x, (x ∈ l ∨ ∃ r ∈ l, r.id = id ∧ x = applyPatch p r now) →
        x.created_at ≤ x.updated_at) := by
    intro l hl hclock x hx
    rcases hx with h | ⟨y, hy, _, rfl⟩
    · exact hl x h
    · rw [applyPatch_created, applyPatch_updated]
      exact hclock y hy
  refine ⟨rfl, rfl, hsingle links, hsingle table, ?_, ?_, ?_, ?_,
    jsonUpdate_created_map id p now links, pgUpdate_created_map id p now table,
    ?_, ?_⟩
  · intro h r hr
    rcases List.mem_append.mp hr with h2 | h2
    · exact h r h2
    · obtain ⟨hc, hu⟩ := mem_bulkRecs h2
      rw [hc, hu]
  · intro h r hr
    cases hgo : pgBulkGo ids now ok drafts 0 with
    | ok staged =>
      simp only [pgCreateLinksBulk, hgo] at hr
      rcases List.mem_append.mp hr with h2 | h2
      · exact h r h2
      · obtain ⟨hc, hu⟩ := hstaged drafts 0 staged hgo r h2
        rw [hc, hu]
    | error e =>
      simp only [pgCreateLinksBulk, hgo] at hr
      exact h r hr
  · intro h hclock r hr
    exact hupdinv links h hclock r (jsonUpdate_mem id p now links r hr)
  · intro h hclock r hr
    by_cases hemp : p.isEmpty = true
    · rw [pgUpdate_empty id p now hemp table] at hr
      exact h r hr
    · have hf : p.isEmpty = false := by
        cases h2 : p.isEmpty
        · rfl
        · exact absurd h2 hemp
      exact hupdinv table h hclock r (pgUpdate_mem id p now hf table r hr)
  · intro h r hr
    exact h r (List.mem_filter.mp hr).1
  · intro h r hr
    exact h r (List.mem_filter.mp hr).1

/-- Record used to instantiate the update claims. -/
def w9 : LinkRec :=
  { id := "a", url := "http://w", title := some "T", tags := ["x"],
    notes := none, created_at := 1, updated_at := 2 }

/-- C9 witness: after a notes-only update at instant 5 on a store holding
`w9` (created at 1), the patched record still satisfies
`created_at ≤ updated_at` in both backends. -/
theorem C9_witness :
    (applyPatch { notes := some "n" } w9 5).created_at ≤
      (applyPatch { notes := some "n" } w9 5).updated_at ∧
    ((pgUpdateLink [w9] "a" { notes := some "n" } 5).1.map
        (fun r => r.created_at) = [w9].map (fun r => r.created_at)) := by
  have h := C9_timestamps_invariant [w9] [w9] exDraft1 [] "b" "a"
    (fun n => "u" ++ toString n) 5 { notes := some "n" } (fun _ => true)
  refine ⟨h.2.2.2.2.2.2.1 (by decide) (by decide)
      (applyPatch { notes := some "n" } w9 5) (by decide),
    h.2.2.2.2.2.2.2.2.2.1⟩

/-! ## Claim C2 — updated_at refresh on update -/

/-- A one-record PG table reached by creating a link at instant 0. -/
def c2Store : List LinkRec := (pgCreateLink [] exDraft1 "a" 0).1

/-- C2 counterexample: in the database backend an update of an existing
record with the empty patch is short-circuited to a plain fetch — the store
and the returned record keep `updated_at = 0` although the operation runs at
instant 5, so `updated_at` is NOT refreshed. -/
theorem C2_counterexample :
    pgUpdateLink c2Store "a" {} 5 = (c2Store, some (mkRec exDraft1 "a" 0)) ∧
    (mkRec exDraft1 "a" 0).updated_at = 0 ∧ (0 : Nat) ≠ 5 := by
  decide

/-- C2 (amended): the file backend refreshes `updated_at` to the operation
instant on every successful update, even for an empty patch; the database
backend refreshes it (on the returned record and on every stored record
with that id) whenever the patch supplies at least one field, but
short-circuits an empty patch to a plain fetch that changes nothing. -/
theorem C2_amended :
    ∀ (links table : List LinkRec) (id : String) (p : Patch) (now : Nat),
      (∀ r, (jsonUpdateLink links id p now).2 = some r → r.updated_at = now) ∧
      (p.isEmpty = false → ∀ r, (pgUpdateLink table id p now).2 = some r →
        r.updated_at = now) ∧
      (p.isEmpty = false → ∀ x ∈ (pgUpdateLink table id p now).1, x.id = id →
        x.updated_at = now) ∧
      (p.isEmpty = true →
        pgUpdateLink table id p now = (table, pgGetLink table id)) := by
  intro links table id p now
  exact ⟨jsonUpdate_some_updated id p now links,
    fun hne r => pgUpdate_some_updated id p now hne table r,
    fun hne x hx => pgUpdate_all_touched id p now hne table x hx,
    fun hemp => pgUpdate_empty id p now hemp table⟩

/-- C2 witness: a notes-only update at instant 7 in the database backend
returns a record stamped 7; an empty-patch update at instant 9 in the file
backend returns a record stamped 9. -/
theorem C2_witness :
    (applyPatch { notes := some "n" } w9 7).updated_at = 7 ∧
    (applyPatch {} w9 9).updated_at = 9 := by
  refine ⟨(C2_amended [w9] [w9] "a" { notes := some "n" } 7).2.1 (by decide)
      (applyPatch { notes := some "n" } w9 7) (by decide), ?_⟩
  exact (C2_amended [w9] [w9] "a" {} 9).1 (applyPatch {} w9 9) (by decide)

/-! ## Claim C3 — partial update frame -/

/-- C3: for both backends and any patch of the `LinkUpdate` shape, update
changes exactly the fields present and non-null in the patch; absent/null
fields, `id` and `created_at` keep their prior values (in particular a
notes-only patch leaves `url`, `title`, `tags` unchanged); every record in
the post-state is either an untouched prior record or a prior record with
the patch applied, and records with a different id are preserved. -/
theorem C3_partial_update_frame :
    ∀ (links table : List LinkRec) (id : String) (p : Patch) (now : Nat)
      (r0 : LinkRec) (u tv nv : String) (ts : List String),
      (applyPatch p r0 now).id = r0.id ∧
      (applyPatch p r0 now).created_at = r0.created_at ∧
      (p.url = none → (applyPatch p r0 now).url = r0.url) ∧
      (p.title = none → (applyPatch p r0 now).title = r0.title) ∧
      (p.tags = none → (applyPatch p r0 now).tags = r0.tags) ∧
      (p.notes = none → (applyPatch p r0 now).notes = r0.notes) ∧
      (p.url = some u → (applyPatch p r0 now).url = u) ∧
      (p.title = some tv → (applyPatch p r0 now).title = some tv) ∧
      (p.tags = some ts → (applyPatch p r0 now).tags = ts) ∧
      (p.notes = some nv → (applyPatch p r0 now).notes = some nv) ∧
      ((applyPatch { notes := some nv } r0 now).url = r0.url ∧
        (applyPatch { notes := some nv } r0 now).title = r0.title ∧
        (applyPatch { notes := some nv } r0 now).tags = r0.tags) ∧
      (∀ x ∈ (jsonUpdateLink links id p now).1,
        x ∈ links ∨ ∃ r ∈ links, r.id = id ∧ x = applyPatch p r now) ∧
      (∀ x ∈ links, x.id ≠ id → x ∈ (jsonUpdateLink links id p now).1) ∧
      (p.isEmpty = false → ∀ x ∈ (pgUpdateLink table id p now).1,
        x ∈ table ∨ ∃ r ∈ table, r.id = id ∧ x = applyPatch p r now) ∧
      (∀ x ∈ table, x.id ≠ id → x ∈ (pgUpdateLink table id p now).1) := by
  intro links table id p now r0 u tv nv ts
  refine ⟨rfl, rfl, ?_, ?_, ?_, ?_, ?_, ?_, ?_, ?_, ⟨rfl, rfl, rfl⟩,
    jsonUpdate_mem id p now links,
    fun x hx hne => jsonUpdate_mem_preserved id p now links x hx hne,
    fun hne x hx => pgUpdate_mem id p now hne table x hx,
    fun x hx hne => pgUpdate_mem_preserved id p now table x hx hne⟩ <;>
    intro h <;> simp [applyPatch, h]

/-- A second record, with a different id, sharing the store with `w9`. -/
def w9b : LinkRec :=
  { id := "b", url := "http://b2", title := none, tags := [],
    notes := some "keep", created_at := 0, updated_at := 0 }

/-- C3 witness: a notes-only patch at instant 4 leaves `url`, `title`,
`tags` of the patched record unchanged, and the other record of the store
(different id) survives the update untouched in both backends. -/
theorem C3_witness :
    ((applyPatch { notes := some "z" } w9 4).url = w9.url ∧
      (applyPatch { notes := some "z" } w9 4).title = w9.title ∧
      (applyPatch { notes := some "z" } w9 4).tags = w9.tags) ∧
    w9b ∈ (jsonUpdateLink [w9, w9b] "a" { notes := some "z" } 4).1 ∧
    w9b ∈ (pgUpdateLink [w9, w9b] "a" { notes := some "z" } 4).1 := by
  have h := C3_partial_update_frame [w9, w9b] [w9, w9b] "a"
    { notes := some "z" } 4 w9 "u" "t" "z" []
  refine ⟨h.2.2.2.2.2.2.2.2.2.2.1, ?_, ?_⟩
  · exact h.2.2.2.2.2.2.2.2.2.2.2.2.1 w9b (by decide) (by decide)
  · exact h.2.2.2.2.2.2.2.2.2.2.2.2.2.2 w9b (by decide) (by decide)

/-! ## String matching lemmas for claim C4 -/

theorem contains_iff_mem (l : List String) (a : String) :
    l.contains a = true ↔ a ∈ l := by
  simp [List.contains]

theorem anySuffix_true_iff (f : List Char → Bool) :
    ∀ s, anySuffix f s = true ↔ ∃ a b, s = a ++ b ∧ f b = true := by
  intro s
  induction s with
  | nil =>
    constructor
    · intro h; exact ⟨[], [], rfl, h⟩
    · rintro ⟨a, b, hab, hb⟩
      obtain ⟨rfl, rfl⟩ := List.append_eq_nil.mp hab.symm
      exact hb
  | cons c t ih =>
    simp only [anySuffix, Bool.or_eq_true, ih]
    constructor
    · rintro (h | ⟨a, b, rfl, hb⟩)
      · exact ⟨[], c :: t, rfl, h⟩
      · exact ⟨c :: a, b, rfl, hb⟩
    · rintro ⟨a, b, hab, hb⟩
      cases a with
      | nil => exact Or.inl (by rw [List.nil_append] at hab; rw [hab]; exact hb)
      | cons a1 a2 =>
        rw [List.cons_append, List.cons.injEq] at hab
        exact Or.inr ⟨a2, b, hab.2, hb⟩

theorem likeMatch_pct (p : List Char) (s : List Char) :
    likeMatch ('%' :: p) s = anySuffix (likeMatch p) s :=
  likeMatch.eq_2 s p

theorem likeMatch_pct_all : ∀ s, likeMatch ['%'] s = true := by
  intro s
  induction s with
  | nil => rfl
  | cons c t ih =>
    rw [likeMatch_pct] at ih ⊢
    simp only [anySuffix, ih, Bool.or_true]

/-- The characters `q` is spliced into the LIKE pattern must avoid for the
pattern to mean a literal substring test: the two wildcards and the escape
character. -/
@[reducible] def CleanLike (l : List Char) : Prop :=
  ∀ c ∈ l, c ≠ '%' ∧ c ≠ '_' ∧ c ≠ '\\'

/-- A query string whose case-folded characters contain no LIKE
metacharacter (metacharacters are unaffected by case folding). -/
@[reducible] def NoMeta (q : String) : Prop := CleanLike (lc q)

theorem likeMatch_clean_append (p : List Char) :
    ∀ (q s : List Char), CleanLike q →
      (likeMatch (q ++ p) s = true ↔
        ∃ s₂, s = q ++ s₂ ∧ likeMatch p s₂ = true) := by
  intro q
  induction q with
  | nil =>
    intro s _
    simp
  | cons c q₂ ih =>
    intro s hclean
    obtain ⟨hc1, hc2, hc3⟩ := hclean c (List.mem_cons_self c q₂)
    have hrest : CleanLike q₂ := fun d hd => hclean d (List.mem_cons_of_mem c hd)
    have h3 : ∀ (e : Char) (p₁ : List Char), c = '\\' → q₂ ++ p = e :: p₁ → False :=
      fun _ _ h _ => hc3 h
    have h4 : c = '\\' → q₂ ++ p = [] → False := fun h _ => hc3 h
    cases s with
    | nil =>
      rw [List.cons_append, likeMatch.eq_8 c (q₂ ++ p) hc1 hc2 h3 h4]
      simp
    | cons d s₃ =>
      rw [List.cons_append, likeMatch.eq_9 c (q₂ ++ p) d s₃ hc1 hc2 h3 h4,
        Bool.and_eq_true, beq_iff_eq, ih s₃ hrest]
      constructor
      · rintro ⟨rfl, s₂, rfl, hs⟩
        exact ⟨s₂, rfl, hs⟩
      · rintro ⟨s₂, hEq, hs⟩
        injection hEq with h1 h2
        subst h1
        subst h2
        exact ⟨rfl, s₂, rfl, hs⟩

theorem likeMatch_clean_occurs (q s : List Char) (hq : CleanLike q) :
    likeMatch ('%' :: (q ++ ['%'])) s = true ↔ q <:+: s := by
  rw [likeMatch_pct, anySuffix_true_iff]
  constructor
  · rintro ⟨a, b, rfl, hb⟩
    obtain ⟨s₂, rfl, _⟩ := (likeMatch_clean_append ['%'] q b hq).mp hb
    exact ⟨a, s₂, by rw [List.append_assoc]⟩
  · rintro ⟨a, t, rfl⟩
    refine ⟨a, q ++ t, by rw [List.append_assoc], ?_⟩
    exact (likeMatch_clean_append ['%'] q (q ++ t) hq).mpr
      ⟨t, rfl, likeMatch_pct_all t⟩

theorem subOf_iff (n : List Char) (h : List Char) :
    subOf n h = true ↔ n <:+: h := by
  induction h with
  | nil => simp [subOf, List.isEmpty_iff]
  | cons c t ih =>
    simp only [subOf, Bool.or_eq_true, ih, List.infix_cons_iff,
      List.isPrefixOf_iff_prefix]

theorem likeSub_eq (q h : List Char) (hq : CleanLike q) :
    likeMatch ('%' :: (q ++ ['%'])) h = subOf q h :=
  Bool.eq_iff_iff.mpr
    ((likeMatch_clean_occurs q h hq).trans (subOf_iff q h).symm)

theorem pgQMatch_eq_jsonQMatch (q : String) (r : LinkRec) (h : NoMeta q) :
    pgQMatch q r = jsonQMatch q r := by
  unfold pgQMatch jsonQMatch
  rw [likeSub_eq (lc q) _ h, likeSub_eq (lc q) _ h, likeSub_eq (lc q) _ h]

theorem jsonQMatch_iff_occurs (q : String) (r : LinkRec) :
    jsonQMatch q r = true ↔
      (lc q <:+: lc (r.title.getD "") ∨ lc q <:+: lc r.url ∨
        lc q <:+: lc (r.notes.getD "")) := by
  simp [jsonQMatch, Bool.or_eq_true, subOf_iff, or_assoc]

/-! ## Filter and page lemmas for claim C4 -/

theorem tagFilter_sublist (tag : Option String) (items : List LinkRec) :
    List.Sublist (tagFilter tag items) items := by
  rcases tag with _ | t
  · exact List.Sublist.refl _
  · simp only [tagFilter]
    split
    · exact List.Sublist.refl _
    · exact List.filter_sublist _

theorem qFilter_sublist (q : Option String) (items : List LinkRec) :
    List.Sublist (qFilter q items) items := by
  rcases q with _ | qs
  · exact List.Sublist.refl _
  · simp only [qFilter]
    split
    · exact List.Sublist.refl _
    · exact List.filter_sublist _

theorem jsonFilter_length_le (tag q : Option String) (links : List LinkRec) :
    (jsonFilter tag q links).length ≤ links.length :=
  ((qFilter_sublist q _).trans (tagFilter_sublist tag links)).length_le

theorem mem_json_page (links : List LinkRec) (lim off : Nat)
    (tag q : Option String) (x : LinkRec) :
    x ∈ (jsonListLinks links lim off tag q).1 → x ∈ jsonFilter tag q links :=
  fun hx => mem_sortDesc.mp (List.mem_of_mem_drop (List.mem_of_mem_take hx))

theorem mem_pg_page (table : List LinkRec) (lim off : Nat)
    (tag q : Option String) (x : LinkRec) :
    x ∈ (pgListLinks table lim off tag q).1 →
      x ∈ table.filter (pgWhere tag q) :=
  fun hx => mem_sortDesc.mp (List.mem_of_mem_drop (List.mem_of_mem_take hx))

theorem json_fullpage_perm (links : List LinkRec) (tag q : Option String) :
    (jsonListLinks links links.length 0 tag q).1.Perm
      (jsonFilter tag q links) := by
  have hlen : (sortDesc (jsonFilter tag q links)).length ≤ links.length := by
    rw [sortDesc_length]; exact jsonFilter_length_le tag q links
  simp only [jsonListLinks, List.drop_zero]
  rw [List.take_of_length_le hlen]
  exact sortDesc_perm _

theorem pg_fullpage_perm (table : List LinkRec) (tag q : Option String) :
    (pgListLinks table table.length 0 tag q).1.Perm
      (table.filter (pgWhere tag q)) := by
  have hlen : (sortDesc (table.filter (pgWhere tag q))).length ≤ table.length := by
    rw [sortDesc_length]; exact List.length_filter_le _ _
  simp only [pgListLinks, List.drop_zero]
  rw [List.take_of_length_le hlen]
  exact sortDesc_perm _

/-! ## Claim C4 — filter semantics -/

/-- A record with url "x" and no title/notes/tags. -/
def c4Rec : LinkRec :=
  { id := "q", url := "x", title := none, tags := [], notes := none,
    created_at := 0, updated_at := 0 }

/-- C4 counterexample: (1) with `q = "_"` the database backend returns the
record with url `"x"` although `"_"` does not occur as a substring of any of
its fields (the file backend correctly drops it) — the unescaped `q` acts as
a LIKE wildcard; (2) with `tag = ""` both backends return a record whose tag
sequence does not contain `""`, because the empty string disables the filter
instead of being matched. -/
theorem C4_counterexample :
    (pgListLinks [c4Rec] 1 0 none (some "_")).1 = [c4Rec] ∧
    jsonQMatch "_" c4Rec = false ∧
    (jsonListLinks [c4Rec] 1 0 none (some "_")).1 = [] ∧
    (jsonListLinks [c10Rec] 1 0 (some "") none).1 = [c10Rec] ∧
    (pgListLinks [c10Rec] 1 0 (some "") none).1 = [c10Rec] ∧
    c10Rec.tags.contains "" = false := by
  decide

/-- C4 (amended): for a non-empty `tag`, both backends select exactly the
records whose tag sequence contains that exact string (case-sensitive); for
a non-empty `q`, the file backend selects exactly the records where `q`
occurs case-insensitively as a substring of title, url or notes (OR of the
three), while the database backend matches `q` as an unescaped SQL LIKE
fragment (`%` any sequence, `_` any character, backslash escape) — the two
agree whenever `q` contains no LIKE metacharacter; with both arguments
non-empty a record must satisfy both filters (AND).  Pages only contain
records passing the filters, and a large enough page contains exactly the
filtered records. -/
theorem C4_amended :
    ∀ (links table : List LinkRec) (t q : String) (r : LinkRec),
      (t ≠ "" → ∀ x, x ∈ jsonFilter (some t) none links ↔
        x ∈ links ∧ t ∈ x.tags) ∧
      (q ≠ "" → ∀ x, x ∈ jsonFilter none (some q) links ↔
        x ∈ links ∧ jsonQMatch q x = true) ∧
      (t ≠ "" → q ≠ "" → ∀ x, x ∈ jsonFilter (some t) (some q) links ↔
        x ∈ links ∧ t ∈ x.tags ∧ jsonQMatch q x = true) ∧
      (t ≠ "" → ∀ x, x ∈ table.filter (pgWhere (some t) none) ↔
        x ∈ table ∧ t ∈ x.tags) ∧
      (q ≠ "" → ∀ x, x ∈ table.filter (pgWhere none (some q)) ↔
        x ∈ table ∧ pgQMatch q x = true) ∧
      (t ≠ "" → q ≠ "" → ∀ x, x ∈ table.filter (pgWhere (some t) (some q)) ↔
        x ∈ table ∧ t ∈ x.tags ∧ pgQMatch q x = true) ∧
      (jsonQMatch q r = true ↔
        (lc q <:+: lc (r.title.getD "") ∨ lc q <:+: lc r.url ∨
          lc q <:+: lc (r.notes.getD ""))) ∧
      (NoMeta q → pgQMatch q r = jsonQMatch q r) ∧
      (∀ lim off tg qu x, x ∈ (jsonListLinks links lim off tg qu).1 →
        x ∈ jsonFilter tg qu links) ∧
      (∀ lim off tg qu x, x ∈ (pgListLinks table lim off tg qu).1 →
        x ∈ table.filter (pgWhere tg qu)) ∧
      ((jsonListLinks links links.length 0 (some t) (some q)).1.Perm
        (jsonFilter (some t) (some q) links)) ∧
      ((pgListLinks table table.length 0 (some t) (some q)).1.Perm
        (table.filter (pgWhere (some t) (some q)))) := by
  intro links table t q r
  refine ⟨?_, ?_, ?_, ?_, ?_, ?_, jsonQMatch_iff_occurs q r,
    pgQMatch_eq_jsonQMatch q r, mem_json_page links, mem_pg_page table,
    json_fullpage_perm links (some t) (some q),
    pg_fullpage_perm table (some t) (some q)⟩
  · intro ht x
    simp [jsonFilter, tagFilter, qFilter, ht, List.mem_filter, contains_iff_mem]
  · intro hq x
    simp [jsonFilter, tagFilter, qFilter, hq, List.mem_filter]
  · intro ht hq x
    simp [jsonFilter, tagFilter, qFilter, ht, hq, List.mem_filter,
      contains_iff_mem, and_assoc, and_comm, and_left_comm]
  · intro ht x
    simp [pgWhere, ht, List.mem_filter, contains_iff_mem]
  · intro hq x
    simp [pgWhere, hq, List.mem_filter]
  · intro ht hq x
    simp [pgWhere, ht, hq, List.mem_filter, contains_iff_mem, and_assoc]

/-- A record whose url contains "AB" and whose tags contain "x". -/
def c4w : LinkRec :=
  { id := "w", url := "HTTP://AB.example", title := some "Hello",
    tags := ["x"], notes := none, created_at := 0, updated_at := 0 }

/-- C4 witness: with `tag = "x"` and `q = "ab"` (no LIKE metacharacters) the
record `c4w` passes both filters in the file backend — `"ab"` matches its
url case-insensitively — and the two backends' q tests agree on it. -/
theorem C4_witness :
    c4w ∈ jsonFilter (some "x") (some "ab") [c4w] ∧
    pgQMatch "ab" c4w = jsonQMatch "ab" c4w := by
  have h := C4_amended [c4w] [c4w] "x" "ab" c4w
  refine ⟨(h.2.2.1 (by decide) (by decide) c4w).mpr
      ⟨by decide, by decide, by decide⟩, ?_⟩
  exact h.2.2.2.2.2.2.2.1 (by decide)

end LinksApi
